import Mathlib

/-!
# Verification of the logZ asynchronous logging core

A shallow embedding of the logZ sources (`RingBytes.h`, `Queue.h`, `Logger.h`,
`Encoder.h`, `Decoder.h`, `LogTypes.h`, `Backend.h`) together with proofs about
the queueing, encoding and emission behaviour of the library.

Machine integers: positions and sizes are 64-bit unsigned in the source and are
modelled as `Nat`.  All subtractions that appear below are performed by the
source on values where the minuend dominates the subtrahend on every state
reachable under the SPSC protocol (`write_pos ≥ read_pos` and
`write_pos - read_pos ≤ capacity`, proved below as `RingBytes.run_inv`), so
`Nat` subtraction agrees with the 64-bit subtraction there and no `% 2^64`
is needed.  Byte values are `Nat` below 256; multi-byte fields are little-endian
byte lists as produced by `memcpy` on x86-64.
-/

set_option linter.unusedVariables false

/-- Little-endian byte list of the low `w` bytes of `v` (what `memcpy` of a
`w`-byte integer writes on x86-64). -/
def leBytes : Nat → Nat → List Nat
  | 0, _ => []
  | w+1, v => (v % 256) :: leBytes w (v / 256)

/-- Read a little-endian byte list back as a number (what `memcpy` into a
`w`-byte integer reads). -/
def fromLE : List Nat → Nat
  | [] => 0
  | b :: t => b + 256 * fromLE t

theorem leBytes_length (w v : Nat) : (leBytes w v).length = w := by
  induction w generalizing v with
  | zero => rfl
  | succ w ih => simp [leBytes, ih]

theorem fromLE_leBytes (w v : Nat) (h : v < 256 ^ w) : fromLE (leBytes w v) = v := by
  induction w generalizing v with
  | zero => simp [leBytes, fromLE]; omega
  | succ w ih =>
    have hv : v / 256 < 256 ^ w := by
      have : 256 ^ (w + 1) = 256 ^ w * 256 := by ring
      omega
    simp [leBytes, fromLE, ih _ hv]
    omega

/-- `MAX_NODE_CAPACITY` from `Queue.h`: 64 MiB cap on a single node. -/
def MAX_NODE_CAPACITY : Nat := 64 * 1024 * 1024

/-- Fuel-bounded upward scan computing the least power of two `≥ n`.
`RingBytes.h::next_power_of_2` computes exactly this value for every `n`
that fits the 64-bit arithmetic it uses (bit-smearing `n-1` and adding 1
yields the least power of two `≥ n`, and `n = 0` yields `1`); the scan from
`1` with 64 doublings covers that whole range. -/
def np2go (n : Nat) : Nat → Nat → Nat
  | 0, acc => acc
  | fuel+1, acc => if n ≤ acc then acc else np2go n fuel (2 * acc)

/-- `RingBytes.h::next_power_of_2`. -/
def next_power_of_2 (n : Nat) : Nat := np2go n 64 1

theorem np2go_le (n : Nat) : ∀ fuel acc, 1 ≤ acc → n ≤ acc * 2 ^ fuel →
    n ≤ np2go n fuel acc := by
  intro fuel
  induction fuel with
  | zero => intro acc h1 h2; simpa [np2go] using h2
  | succ fuel ih =>
    intro acc h1 h2
    simp only [np2go]
    split
    · assumption
    · refine ih (2 * acc) (by omega) (le_of_le_of_eq h2 ?_)
      ring

theorem np2go_pow2 (n : Nat) : ∀ fuel acc, (∃ k, acc = 2 ^ k) →
    ∃ j, np2go n fuel acc = 2 ^ j := by
  intro fuel
  induction fuel with
  | zero => intro acc h; simpa [np2go] using h
  | succ fuel ih =>
    intro acc h
    obtain ⟨k, hk⟩ := h
    simp only [np2go]
    split
    · exact ⟨k, hk⟩
    · exact ih (2 * acc) ⟨k + 1, by rw [hk]; ring⟩

theorem np2go_min (n : Nat) : ∀ fuel acc m j, n ≤ m → m = acc * 2 ^ j →
    np2go n fuel acc ≤ m := by
  intro fuel
  induction fuel with
  | zero =>
    intro acc m j hn hm
    have : 1 ≤ 2 ^ j := Nat.one_le_two_pow
    simp only [np2go]
    calc acc = acc * 1 := by ring
    _ ≤ acc * 2 ^ j := Nat.mul_le_mul_left acc this
    _ = m := hm.symm
  | succ fuel ih =>
    intro acc m j hn hm
    simp only [np2go]
    split
    · have : 1 ≤ 2 ^ j := Nat.one_le_two_pow
      calc acc = acc * 1 := by ring
      _ ≤ acc * 2 ^ j := Nat.mul_le_mul_left acc this
      _ = m := hm.symm
    · rename_i hguard
      have hj : j ≠ 0 := by
        intro h0
        subst h0
        simp at hm
        omega
      obtain ⟨j', rfl⟩ : ∃ j', j = j' + 1 := ⟨j - 1, by omega⟩
      exact ih (2 * acc) m j' hn (by rw [hm]; ring)

theorem next_power_of_2_ge (n : Nat) (h : n ≤ 2 ^ 64) : n ≤ next_power_of_2 n :=
  np2go_le n 64 1 (by omega) (by simpa using h)

theorem next_power_of_2_pow2 (n : Nat) : ∃ j, next_power_of_2 n = 2 ^ j :=
  np2go_pow2 n 64 1 ⟨0, rfl⟩

theorem next_power_of_2_min (n k : Nat) (h : n ≤ 2 ^ k) :
    next_power_of_2 n ≤ 2 ^ k :=
  np2go_min n 64 1 (2 ^ k) k h (by ring)

/-- State of `RingBytes` (`RingBytes.h`): fixed capacity (a power of two by
construction), monotonically increasing 64-bit `write_pos_` / `read_pos_`.
The byte storage itself carries no information needed by the claims; offsets
into it are returned by the operations. `pos & (capacity-1)` is written
`pos % capacity`, equal for the power-of-two capacities the constructor
produces. -/
structure RingBytes where
  capacity : Nat
  write_pos : Nat
  read_pos : Nat
deriving DecidableEq

/-- The `RingBytes` constructor: capacity rounded up to the next power of
two, both positions zero. -/
def RingBytes.init (capacity : Nat) : RingBytes :=
  { capacity := next_power_of_2 capacity, write_pos := 0, read_pos := 0 }

/-- `RingBytes::reserve_write` (RingBytes.h:61-91).  Returns the offset of the
reserved bytes and the state after the call.  Note the source advances
`write_pos_` (with a release store) inside this function; there is no
separate `commit_write` member. -/
def RingBytes.reserve_write (s : RingBytes) (size : Nat) : Option (Nat × RingBytes) :=
  if size = 0 ∨ s.capacity < size then none
  else if s.capacity - (s.write_pos - s.read_pos) < size then none
  else if s.capacity < s.write_pos % s.capacity + size then none
  else some (s.write_pos % s.capacity, { s with write_pos := s.write_pos + size })

/-- `RingBytes::read` (RingBytes.h:132-150): peek without advancing. Returns
the offset of the data. -/
def RingBytes.read (s : RingBytes) (size : Nat) : Option Nat :=
  if size = 0 then none
  else if s.write_pos - s.read_pos < size then none
  else some (s.read_pos % s.capacity)

/-- `RingBytes::commit_read` (RingBytes.h:158-161). -/
def RingBytes.commit_read (s : RingBytes) (size : Nat) : RingBytes :=
  { s with read_pos := s.read_pos + size }

/-- `RingBytes::available_read` (RingBytes.h:175-179). -/
def RingBytes.available_read (s : RingBytes) : Nat := s.write_pos - s.read_pos

/-- `RingBytes::available_write` (RingBytes.h:185-189). -/
def RingBytes.available_write (s : RingBytes) : Nat :=
  s.capacity - (s.write_pos - s.read_pos)

/-- One well-formed SPSC interaction: a producer reservation, or a consumer
read-then-commit of the same size (the only way the backend consumes,
`Backend.h:374-411`). -/
inductive SpscOp where
  | reserve (n : Nat)
  | consume (n : Nat)
deriving DecidableEq

/-- Effect of one SPSC operation on the ring state. -/
def RingBytes.step (s : RingBytes) : SpscOp → RingBytes
  | .reserve n =>
    match s.reserve_write n with
    | some (_, s') => s'
    | none => s
  | .consume n =>
    match s.read n with
    | some _ => s.commit_read n
    | none => s

/-- Run a sequence of SPSC operations from a state. -/
def RingBytes.run (s : RingBytes) (ops : List SpscOp) : RingBytes :=
  ops.foldl RingBytes.step s

/-- The SPSC invariant of the ring: positions ordered and at most `capacity`
bytes in flight. -/
def RingBytes.Inv (s : RingBytes) : Prop :=
  s.read_pos ≤ s.write_pos ∧ s.write_pos - s.read_pos ≤ s.capacity

theorem RingBytes.reserve_write_some (s : RingBytes) (size off : Nat) (s' : RingBytes)
    (h : s.reserve_write size = some (off, s')) :
    s' = { s with write_pos := s.write_pos + size } ∧
    off = s.write_pos % s.capacity ∧
    1 ≤ size ∧ size ≤ s.capacity ∧
    size ≤ s.capacity - (s.write_pos - s.read_pos) ∧
    s.write_pos % s.capacity + size ≤ s.capacity := by
  unfold RingBytes.reserve_write at h
  split at h
  · exact absurd h (by simp)
  · split at h
    · exact absurd h (by simp)
    · split at h
      · exact absurd h (by simp)
      · refine ⟨by injection h with h'; exact (Prod.mk.injEq _ _ _ _ ▸ h').2.symm,
          by injection h with h'; exact ((Prod.mk.injEq _ _ _ _).mp h'.symm).1, ?_, ?_, ?_, ?_⟩ <;> omega

theorem RingBytes.read_some (s : RingBytes) (size off : Nat)
    (h : s.read size = some off) :
    off = s.read_pos % s.capacity ∧ 1 ≤ size ∧ size ≤ s.write_pos - s.read_pos := by
  unfold RingBytes.read at h
  split at h
  · exact absurd h (by simp)
  · split at h
    · exact absurd h (by simp)
    · exact ⟨by injection h with h'; exact h'.symm, by omega, by omega⟩

theorem RingBytes.step_inv (s : RingBytes) (op : SpscOp) (h : s.Inv) :
    (s.step op).Inv ∧ (s.step op).capacity = s.capacity := by
  obtain ⟨h1, h2⟩ := h
  cases op with
  | reserve n =>
    simp only [RingBytes.step]
    cases hr : s.reserve_write n with
    | none => exact ⟨⟨h1, h2⟩, rfl⟩
    | some p =>
      obtain ⟨off, s'⟩ := p
      obtain ⟨hs', _, _, _, hav, _⟩ := s.reserve_write_some n off s' hr
      subst hs'
      refine ⟨⟨?_, ?_⟩, rfl⟩
      · show s.read_pos ≤ s.write_pos + n
        omega
      · show s.write_pos + n - s.read_pos ≤ s.capacity
        omega
  | consume n =>
    simp only [RingBytes.step]
    cases hr : s.read n with
    | none => exact ⟨⟨h1, h2⟩, rfl⟩
    | some off =>
      obtain ⟨_, _, hle⟩ := s.read_some n off hr
      refine ⟨⟨?_, ?_⟩, rfl⟩
      · show s.read_pos + n ≤ s.write_pos
        omega
      · show s.write_pos - (s.read_pos + n) ≤ s.capacity
        omega

theorem RingBytes.run_inv (s : RingBytes) (ops : List SpscOp) (h : s.Inv) :
    (s.run ops).Inv ∧ (s.run ops).capacity = s.capacity := by
  induction ops generalizing s with
  | nil => exact ⟨h, rfl⟩
  | cons op ops ih =>
    obtain ⟨hi, hc⟩ := s.step_inv op h
    obtain ⟨hi', hc'⟩ := ih (s.step op) hi
    exact ⟨hi', by rw [RingBytes.run] at hc' ⊢; simp only [List.foldl] ; omega⟩

theorem RingBytes.init_inv (c : Nat) : (RingBytes.init c).Inv := by
  constructor <;> simp [RingBytes.init]

/-- C3 (amended: `1 ≤ n`): on every state reachable by a sequence of SPSC
operations from a fresh ring of capacity `C`, and for every `n` with
`1 ≤ n ≤ C`, `reserve_write n` succeeds exactly when
`write_pos - read_pos + n ≤ C` and `write_pos % C + n ≤ C`. -/
theorem reserve_write_success_iff (C : Nat) (ops : List SpscOp) (n : Nat)
    (h1 : 1 ≤ n) (h2 : n ≤ ((RingBytes.init C).run ops).capacity) :
    (∃ r, ((RingBytes.init C).run ops).reserve_write n = some r) ↔
      (((RingBytes.init C).run ops).write_pos - ((RingBytes.init C).run ops).read_pos + n ≤
          ((RingBytes.init C).run ops).capacity ∧
        ((RingBytes.init C).run ops).write_pos % ((RingBytes.init C).run ops).capacity + n ≤
          ((RingBytes.init C).run ops).capacity) := by
  obtain ⟨⟨hi1, hi2⟩, hc⟩ := (RingBytes.init C).run_inv ops (RingBytes.init_inv C)
  set s := (RingBytes.init C).run ops with hs
  unfold RingBytes.reserve_write
  constructor
  · rintro ⟨r, hr⟩
    split at hr
    · exact absurd hr (by simp)
    · split at hr
      · exact absurd hr (by simp)
      · split at hr
        · exact absurd hr (by simp)
        · omega
  · rintro ⟨ha, hb⟩
    rw [if_neg (by omega), if_neg (by omega), if_neg (by omega)]
    exact ⟨_, rfl⟩

/-- Witness for `reserve_write_success_iff` at `C = 16`, empty history, `n = 1`. -/
theorem reserve_write_success_iff_witness :
    (∃ r, ((RingBytes.init 16).run []).reserve_write 1 = some r) ↔
      (((RingBytes.init 16).run []).write_pos - ((RingBytes.init 16).run []).read_pos + 1 ≤
          ((RingBytes.init 16).run []).capacity ∧
        ((RingBytes.init 16).run []).write_pos % ((RingBytes.init 16).run []).capacity + 1 ≤
          ((RingBytes.init 16).run []).capacity) :=
  reserve_write_success_iff 16 [] 1 (by decide) (by decide)

/-- C3 counterexample: at `n = 0` both claimed conditions hold on the fresh
ring of capacity 16, yet `reserve_write 0` fails (RingBytes.h:62 rejects
`size == 0`), so the claimed equivalence is false for `n = 0 ≤ C`. -/
theorem reserve_write_zero_fails :
    ((RingBytes.init 16).write_pos - (RingBytes.init 16).read_pos + 0 ≤ (RingBytes.init 16).capacity ∧
      (RingBytes.init 16).write_pos % (RingBytes.init 16).capacity + 0 ≤ (RingBytes.init 16).capacity) ∧
    (RingBytes.init 16).reserve_write 0 = none := by
  decide

/-- C4 (amended): `reserve_write n` returns the writable offset
`write_pos % capacity` and itself advances `write_pos` by `n` (with a release
store, RingBytes.h:87); `RingBytes` has no separate `commit_write` member, and
`read_pos` and the capacity are untouched by the reservation. -/
theorem reserve_write_frame (s : RingBytes) (n off : Nat) (s' : RingBytes)
    (h : s.reserve_write n = some (off, s')) :
    s'.write_pos = s.write_pos + n ∧ s'.read_pos = s.read_pos ∧
    s'.capacity = s.capacity ∧ off = s.write_pos % s.capacity := by
  obtain ⟨hs', hoff, _⟩ := s.reserve_write_some n off s' h
  subst hs'
  exact ⟨rfl, rfl, rfl, hoff⟩

/-- Witness for `reserve_write_frame` on a fresh ring of capacity 16 with a
reservation of 4 bytes. -/
theorem reserve_write_frame_witness :
    ((RingBytes.init 16).reserve_write 4 =
        some (0, { capacity := 16, write_pos := 4, read_pos := 0 })) ∧
    ({ capacity := 16, write_pos := 4, read_pos := 0 } : RingBytes).write_pos =
        (RingBytes.init 16).write_pos + 4 ∧
    ({ capacity := 16, write_pos := 4, read_pos := 0 } : RingBytes).read_pos =
        (RingBytes.init 16).read_pos ∧
    ({ capacity := 16, write_pos := 4, read_pos := 0 } : RingBytes).capacity =
        (RingBytes.init 16).capacity ∧
    0 = (RingBytes.init 16).write_pos % (RingBytes.init 16).capacity :=
  ⟨by decide, reserve_write_frame (RingBytes.init 16) 4 0 _ (by decide)⟩

/-- C4 counterexample: immediately after a successful `reserve_write 4` on a
fresh capacity-16 ring — with no `commit_write` call (none exists) — the
`write_pos` is already 4, not 0, refuting "does NOT advance `write_pos`". -/
theorem reserve_write_advances_immediately :
    (RingBytes.init 16).reserve_write 4 =
      some (0, { capacity := 16, write_pos := 4, read_pos := 0 }) ∧
    (4 : Nat) ≠ (RingBytes.init 16).write_pos := by
  decide

/-- A `Queue::Node` (Queue.h:20-30): the raw `capacity` field stored on the
node plus its `RingBytes` ring (whose own capacity is the raw capacity rounded
up to a power of two by the `RingBytes` constructor). -/
structure Node where
  capacity : Nat
  ring : RingBytes
deriving DecidableEq

/-- The `Node` constructor. -/
def Node.init (cap : Nat) : Node :=
  { capacity := cap, ring := RingBytes.init cap }

/-- The capacity-doubling loop of `Queue::reserve_write` (Queue.h:100-105):
`while (nc < size && nc < MAX) { nc *= 2; if (nc > MAX) nc = MAX; }`.
Structural fuel replaces the C loop; 64 doublings exceed every capacity the
loop can visit starting from `nc ≥ 1` (the loop does not terminate in the
source when `nc = 0`, which no reachable node capacity produces). -/
def growLoop (size : Nat) : Nat → Nat → Nat
  | 0, nc => nc
  | fuel+1, nc =>
    if nc < size ∧ nc < MAX_NODE_CAPACITY then
      growLoop size fuel (min (2 * nc) MAX_NODE_CAPACITY)
    else nc

/-- The full new-capacity computation of `Queue::reserve_write`
(Queue.h:93-105): double the tail capacity, clamp to `MAX_NODE_CAPACITY`,
then keep doubling (clamped) while below the requested size. -/
def new_capacity_for (cap size : Nat) : Nat :=
  growLoop size 64 (min (2 * cap) MAX_NODE_CAPACITY)

/-- `Queue::reserve_write` (Queue.h:74-127), acting on the tail node
(`write_node_`).  Returns the node holding the reservation, whether a new
node was linked, and the reserved offset. -/
def Queue.reserve_write (tail : Node) (size : Nat) : Option (Node × Bool × Nat) :=
  if size = 0 then none
  else
    match tail.ring.reserve_write size with
    | some (off, r') => some ({ tail with ring := r' }, false, off)
    | none =>
      if MAX_NODE_CAPACITY ≤ tail.capacity then none
      else if MAX_NODE_CAPACITY < size then none
      else
        match (Node.init (new_capacity_for tail.capacity size)).ring.reserve_write size with
        | none => none
        | some (off, r') =>
          some ({ capacity := new_capacity_for tail.capacity size, ring := r' }, true, off)

/-- `Queue::read` (Queue.h:195-228), acting on the head node (`read_node_`)
and the list of nodes linked after it.  Returns the served offset (if any)
and the state after the call (the head advances — and the old node is freed —
only when the head ring is fully drained and a next node exists; the retry
happens on the new head alone). -/
def Queue.read (head : Node) (rest : List Node) (size : Nat) :
    Option Nat × (Node × List Node) :=
  if size = 0 then (none, (head, rest))
  else
    match head.ring.read size with
    | some off => (some off, (head, rest))
    | none =>
      match rest with
      | [] => (none, (head, rest))
      | next :: more =>
        if head.ring.available_read = 0 then
          (next.ring.read size, (next, more))
        else (none, (head, rest))

theorem growLoop_bounds (size : Nat) : ∀ fuel nc, 1 ≤ nc → nc ≤ MAX_NODE_CAPACITY →
    MAX_NODE_CAPACITY ≤ nc * 2 ^ fuel →
    (size ≤ growLoop size fuel nc ∨ growLoop size fuel nc = MAX_NODE_CAPACITY) ∧
    nc ≤ growLoop size fuel nc ∧ growLoop size fuel nc ≤ MAX_NODE_CAPACITY := by
  intro fuel
  induction fuel with
  | zero =>
    intro nc h1 h2 h3
    simp only [growLoop]
    simp only [pow_zero, mul_one] at h3
    omega
  | succ fuel ih =>
    intro nc h1 h2 h3
    simp only [growLoop]
    split
    · rename_i hguard
      have hfuel : MAX_NODE_CAPACITY ≤ min (2 * nc) MAX_NODE_CAPACITY * 2 ^ fuel := by
        rcases Nat.le_total (2 * nc) MAX_NODE_CAPACITY with hle | hle
        · rw [min_eq_left hle]
          calc MAX_NODE_CAPACITY ≤ nc * 2 ^ (fuel + 1) := h3
          _ = 2 * nc * 2 ^ fuel := by ring
        · rw [min_eq_right hle]
          have : 1 ≤ 2 ^ fuel := Nat.one_le_two_pow
          calc MAX_NODE_CAPACITY = MAX_NODE_CAPACITY * 1 := by ring
          _ ≤ MAX_NODE_CAPACITY * 2 ^ fuel := Nat.mul_le_mul_left _ this
      obtain ⟨ha, hb, hc⟩ := ih (min (2 * nc) MAX_NODE_CAPACITY) (by omega) (by omega) hfuel
      exact ⟨ha, by omega, hc⟩
    · rename_i hguard
      omega

theorem growLoop_pow2_closed (size : Nat) (hs : 1 ≤ size)
    (hsM : size ≤ MAX_NODE_CAPACITY) :
    ∀ fuel nc, (∃ k, nc = 2 ^ k) → nc ≤ MAX_NODE_CAPACITY →
    MAX_NODE_CAPACITY ≤ nc * 2 ^ fuel →
    growLoop size fuel nc =
      min MAX_NODE_CAPACITY (max nc (next_power_of_2 size)) := by
  have hmaxpow : MAX_NODE_CAPACITY = 2 ^ 26 := by decide
  have hsize64 : size ≤ 2 ^ 64 := le_trans hsM (by decide)
  have hnp_ge : size ≤ next_power_of_2 size := next_power_of_2_ge size hsize64
  have hnp_max : next_power_of_2 size ≤ MAX_NODE_CAPACITY := by
    rw [hmaxpow]
    exact next_power_of_2_min size 26 (by omega)
  intro fuel
  induction fuel with
  | zero =>
    intro nc hp h2 h3
    simp only [pow_zero, mul_one] at h3
    have hnc : nc = MAX_NODE_CAPACITY := by omega
    subst hnc
    simp only [growLoop]
    omega
  | succ fuel ih =>
    intro nc hp h2 h3
    obtain ⟨k, rfl⟩ := hp
    simp only [growLoop]
    split
    · rename_i hguard
      obtain ⟨hlt_size, hlt_max⟩ := hguard
      have hk26 : k < 26 := by
        rw [hmaxpow] at hlt_max
        exact (Nat.pow_lt_pow_iff_right (by omega)).mp hlt_max
      have hdouble : 2 * 2 ^ k ≤ MAX_NODE_CAPACITY := by
        rw [hmaxpow]
        calc 2 * 2 ^ k = 2 ^ (k + 1) := by ring
        _ ≤ 2 ^ 26 := Nat.pow_le_pow_right (by omega) (by omega)
      rw [min_eq_left hdouble]
      have hih := ih (2 * 2 ^ k) ⟨k + 1, by ring⟩ hdouble
        (by calc MAX_NODE_CAPACITY ≤ 2 ^ k * 2 ^ (fuel + 1) := h3
            _ = 2 * 2 ^ k * 2 ^ fuel := by ring)
      rw [hih]
      obtain ⟨j, hj⟩ := next_power_of_2_pow2 size
      have hjk : 2 * 2 ^ k ≤ next_power_of_2 size := by
        rw [hj]
        have hpow : 2 ^ k < 2 ^ j := by omega
        have hkj : k < j := (Nat.pow_lt_pow_iff_right (by omega)).mp hpow
        calc 2 * 2 ^ k = 2 ^ (k + 1) := by ring
        _ ≤ 2 ^ j := Nat.pow_le_pow_right (by omega) (by omega)
      omega
    · rename_i hguard
      have hcases : size ≤ 2 ^ k ∨ MAX_NODE_CAPACITY ≤ 2 ^ k := by
        by_contra hcon
        push_neg at hcon
        exact hguard ⟨by omega, by omega⟩
      rcases hcases with hle | hle
      · have : next_power_of_2 size ≤ 2 ^ k := next_power_of_2_min size k hle
        omega
      · omega

/-- C5 (amended): when the tail reservation fails, a full `MAX_NODE_CAPACITY`
tail drops the record; otherwise a new node is linked whose stored capacity is
the source's clamped-doubling value `new_capacity_for`, the retried
reservation on it succeeds for every `1 ≤ n ≤ MAX_NODE_CAPACITY`, and when
the tail capacity is a power of two this capacity equals
`min MAX_NODE_CAPACITY (next_power_of_2 (max (2·capacity) n))`. -/
theorem queue_growth_spec (tail : Node) (n : Nat) (h1 : 1 ≤ n)
    (hfail : tail.ring.reserve_write n = none) :
    (MAX_NODE_CAPACITY ≤ tail.capacity → Queue.reserve_write tail n = none) ∧
    (tail.capacity < MAX_NODE_CAPACITY → n ≤ MAX_NODE_CAPACITY → 1 ≤ tail.capacity →
      (Queue.reserve_write tail n =
        some ({ capacity := new_capacity_for tail.capacity n,
                ring := { capacity := next_power_of_2 (new_capacity_for tail.capacity n),
                          write_pos := n, read_pos := 0 } }, true, 0)) ∧
      n ≤ new_capacity_for tail.capacity n ∧
      new_capacity_for tail.capacity n ≤ MAX_NODE_CAPACITY ∧
      (∀ k, tail.capacity = 2 ^ k →
        new_capacity_for tail.capacity n =
          min MAX_NODE_CAPACITY (next_power_of_2 (max (2 * tail.capacity) n)))) := by
  have hmaxpow : MAX_NODE_CAPACITY = 2 ^ 26 := by decide
  constructor
  · intro hge
    unfold Queue.reserve_write
    rw [if_neg (by omega), hfail]
    simp only [if_pos hge]
  · intro hlt hn hcap
    have hnc0 : 1 ≤ min (2 * tail.capacity) MAX_NODE_CAPACITY := by
      have : (0 : Nat) < MAX_NODE_CAPACITY := by decide
      omega
    have hfuel : MAX_NODE_CAPACITY ≤ min (2 * tail.capacity) MAX_NODE_CAPACITY * 2 ^ 64 := by
      have h1le : 1 * MAX_NODE_CAPACITY ≤ min (2 * tail.capacity) MAX_NODE_CAPACITY * 2 ^ 64 := by
        apply Nat.mul_le_mul hnc0
        rw [hmaxpow]
        exact Nat.pow_le_pow_right (by omega) (by omega)
      omega
    obtain ⟨hor, hge0, hle_max⟩ :=
      growLoop_bounds n 64 (min (2 * tail.capacity) MAX_NODE_CAPACITY) hnc0 (by omega) hfuel
    have hge_n : n ≤ new_capacity_for tail.capacity n := by
      unfold new_capacity_for
      omega
    have hle_max' : new_capacity_for tail.capacity n ≤ MAX_NODE_CAPACITY := hle_max
    have hring : n ≤ next_power_of_2 (new_capacity_for tail.capacity n) := by
      refine le_trans hge_n (next_power_of_2_ge _ ?_)
      calc new_capacity_for tail.capacity n ≤ MAX_NODE_CAPACITY := hle_max'
      _ ≤ 2 ^ 64 := by decide
    refine ⟨?_, hge_n, hle_max', ?_⟩
    · unfold Queue.reserve_write
      rw [if_neg (by omega), hfail]
      rw [if_neg (by omega), if_neg (by omega)]
      have hres : (Node.init (new_capacity_for tail.capacity n)).ring.reserve_write n =
          some (0, { capacity := next_power_of_2 (new_capacity_for tail.capacity n),
                     write_pos := n, read_pos := 0 }) := by
        unfold Node.init RingBytes.init RingBytes.reserve_write
        simp only
        rw [if_neg (by simp; omega), if_neg (by simp; omega), if_neg (by simp; omega)]
        simp
      rw [hres]
    · intro k hk
      unfold new_capacity_for
      have h2k : 2 * tail.capacity ≤ MAX_NODE_CAPACITY := by
        rw [hk, hmaxpow]
        have : k < 26 := by
          rw [hk, hmaxpow] at hlt
          exact (Nat.pow_lt_pow_iff_right (by omega)).mp hlt
        calc 2 * 2 ^ k = 2 ^ (k + 1) := by ring
        _ ≤ 2 ^ 26 := Nat.pow_le_pow_right (by omega) (by omega)
      rw [min_eq_left h2k]
      rw [growLoop_pow2_closed n h1 hn 64 (2 * tail.capacity) ⟨k + 1, by rw [hk]; ring⟩ h2k
        (by calc MAX_NODE_CAPACITY ≤ 1 * 2 ^ 64 := by decide
            _ ≤ 2 * tail.capacity * 2 ^ 64 := Nat.mul_le_mul (by omega) (le_refl _))]
      -- max (2·cap) (np2 n) = np2 (max (2·cap) n) for a power-of-two 2·cap
      obtain ⟨j, hj⟩ := next_power_of_2_pow2 n
      have hnp_ge : n ≤ next_power_of_2 n := by
        refine next_power_of_2_ge n ?_
        calc n ≤ MAX_NODE_CAPACITY := hn
        _ ≤ 2 ^ 64 := by decide
      rcases Nat.le_total n (2 * tail.capacity) with hle | hle
      · have hnp_le : next_power_of_2 n ≤ 2 * tail.capacity := by
          have : n ≤ 2 ^ (k + 1) := by rw [hk] at hle; omega
          have := next_power_of_2_min n (k + 1) this
          rw [hk]
          omega
        have hmax1 : max (2 * tail.capacity) (next_power_of_2 n) = 2 * tail.capacity := by omega
        have hmax2 : max (2 * tail.capacity) n = 2 * tail.capacity := by omega
        rw [hmax1, hmax2]
        have hself : next_power_of_2 (2 * tail.capacity) = 2 * tail.capacity := by
          have hub : next_power_of_2 (2 * tail.capacity) ≤ 2 ^ (k + 1) := by
            apply next_power_of_2_min
            rw [hk]
            omega
          have hlb : 2 * tail.capacity ≤ next_power_of_2 (2 * tail.capacity) := by
            apply next_power_of_2_ge
            calc 2 * tail.capacity ≤ MAX_NODE_CAPACITY := h2k
            _ ≤ 2 ^ 64 := by decide
          have hpows : (2:Nat) ^ (k + 1) = 2 * 2 ^ k := by ring
          rw [hk] at hub hlb ⊢
          omega
        rw [hself]
      · have hmax2 : max (2 * tail.capacity) n = n := by omega
        have hnp_big : 2 * tail.capacity ≤ next_power_of_2 n := le_trans hle hnp_ge
        have hmax1 : max (2 * tail.capacity) (next_power_of_2 n) = next_power_of_2 n := by omega
        rw [hmax1, hmax2]

/-- Witness for `queue_growth_spec`: a full 64-byte power-of-two tail, `n = 8`:
the growth succeeds on a fresh 128-byte node. -/
theorem queue_growth_spec_witness :
    (Queue.reserve_write { capacity := 64, ring := { capacity := 64, write_pos := 64, read_pos := 0 } } 8 =
      some ({ capacity := new_capacity_for 64 8,
              ring := { capacity := next_power_of_2 (new_capacity_for 64 8),
                        write_pos := 8, read_pos := 0 } }, true, 0)) ∧
    8 ≤ new_capacity_for 64 8 ∧
    new_capacity_for 64 8 ≤ MAX_NODE_CAPACITY ∧
    new_capacity_for 64 8 =
      min MAX_NODE_CAPACITY (next_power_of_2 (max (2 * 64) 8)) := by
  have h := queue_growth_spec
    { capacity := 64, ring := { capacity := 64, write_pos := 64, read_pos := 0 } } 8
    (by decide) (by decide)
  obtain ⟨-, h2⟩ := h
  obtain ⟨ha, hb, hc, hd⟩ := h2 (by decide) (by decide) (by decide)
  exact ⟨ha, hb, hc, hd 6 (by decide)⟩

/-- C5 counterexample: a tail node of raw capacity 100 (as built by the
repository's own `Queue queue(100)` test) with an empty 128-byte ring and
`n = 450`: the tail reservation fails, and the code links a node of capacity
800 (doubling 200 → 400 → 800), while the claimed formula gives
`min MAX_NODE (next_pow2 (max 200 450)) = 512 ≠ 800`. -/
theorem queue_growth_capacity_not_next_pow2 :
    (Queue.reserve_write (Node.init 100) 450).map (fun r => r.1.capacity) = some 800 ∧
    (800 : Nat) ≠ min MAX_NODE_CAPACITY (next_power_of_2 (max (2 * 100) 450)) := by
  decide

/-- C10: `Queue::read` serves from a single node only.  If the head node holds
a positive number of unread bytes smaller than `n`, the read fails — however
much data later nodes hold — and the state is unchanged; only when the head is
completely drained and a next node exists does the head advance (the old node
is freed) and the read retried on the new head alone; a successful read is
always served entirely by one ring. -/
theorem queue_read_single_node (head : Node) (rest : List Node) (n : Nat)
    (h1 : 1 ≤ n) :
    (0 < head.ring.available_read → head.ring.available_read < n →
      Queue.read head rest n = (none, (head, rest))) ∧
    (head.ring.available_read = 0 →
      ∀ next more, rest = next :: more →
        Queue.read head rest n = (next.ring.read n, (next, more))) ∧
    (∀ off st, Queue.read head rest n = (some off, st) →
      (st = (head, rest) ∧ head.ring.read n = some off) ∨
      (∃ next more, rest = next :: more ∧ head.ring.available_read = 0 ∧
        st = (next, more) ∧ next.ring.read n = some off)) := by
  refine ⟨?_, ?_, ?_⟩
  · intro hpos hlt
    unfold Queue.read
    rw [if_neg (by omega)]
    have hnone : head.ring.read n = none := by
      unfold RingBytes.read
      unfold RingBytes.available_read at hpos hlt
      rw [if_neg (by omega), if_pos (by omega)]
    rw [hnone]
    cases rest with
    | nil => rfl
    | cons next more =>
      simp only
      rw [if_neg (by unfold RingBytes.available_read at hpos ⊢; omega)]
  · intro hzero next more hrest
    subst hrest
    unfold Queue.read
    rw [if_neg (by omega)]
    have hnone : head.ring.read n = none := by
      unfold RingBytes.read
      unfold RingBytes.available_read at hzero
      rw [if_neg (by omega), if_pos (by omega)]
    rw [hnone]
    simp only
    rw [if_pos hzero]
  · intro off st h
    unfold Queue.read at h
    rw [if_neg (by omega)] at h
    cases hr : head.ring.read n with
    | some o =>
      rw [hr] at h
      left
      injection h with ha hb
      injection ha with ha
      exact ⟨hb.symm, by rw [ha]⟩
    | none =>
      rw [hr] at h
      cases rest with
      | nil => exact absurd h (by simp)
      | cons next more =>
        simp only at h
        split at h
        · rename_i hzero
          right
          injection h with ha hb
          exact ⟨next, more, rfl, hzero, hb.symm, ha⟩
        · exact absurd h (by simp)

/-- Witness for `queue_read_single_node`: head holds 1 unread byte, the next
node holds 5, a 3-byte read fails and leaves the queue untouched. -/
theorem queue_read_single_node_witness :
    Queue.read { capacity := 4, ring := { capacity := 4, write_pos := 2, read_pos := 1 } }
        [{ capacity := 8, ring := { capacity := 8, write_pos := 5, read_pos := 0 } }] 3 =
      (none, ({ capacity := 4, ring := { capacity := 4, write_pos := 2, read_pos := 1 } },
        [{ capacity := 8, ring := { capacity := 8, write_pos := 5, read_pos := 0 } }])) :=
  ((queue_read_single_node
    { capacity := 4, ring := { capacity := 4, write_pos := 2, read_pos := 1 } }
    [{ capacity := 8, ring := { capacity := 8, write_pos := 5, read_pos := 0 } }] 3
    (by decide)).1) (by decide) (by decide)

/-- The value of one metadata record: timestamp, decoder function reference
(an 8-byte code address), argument-blob size, level byte. -/
structure MetadataVal where
  timestamp : Nat
  decoder : Nat
  args_size : Nat
  level : Nat
deriving DecidableEq

/-- Byte image of `Logger.h`'s `LogMetadata { LogLevel level; uint64_t
timestamp; uint32_t args_size; DecoderFunc decoder }` as the producer's
`Logger::encode` (Logger.h:256-271) stores it on x86-64: `level` at offset 0,
7 padding bytes, `timestamp` at 8, `args_size` at 16, 4 padding bytes,
`decoder` at 24; `sizeof(LogMetadata) = 32`.  Padding bytes are modelled as
zero (their contents are indeterminate in the source and never inspected). -/
def LogMetadata.toBytes (m : MetadataVal) : List Nat :=
  [m.level % 256] ++ List.replicate 7 0 ++ leBytes 8 m.timestamp ++
    leBytes 4 m.args_size ++ List.replicate 4 0 ++ leBytes 8 m.decoder

/-- Byte image of `LogTypes.h`'s `Metadata { uint64_t timestamp; DecoderFunc
decoder; uint32_t args_size; LogLevel level }` (LogTypes.h:104-110):
`timestamp` at offset 0, `decoder` at 8, `args_size` at 16, `level` at 20,
3 padding bytes; `sizeof(Metadata) = 24`. -/
def Metadata.toBytes (m : MetadataVal) : List Nat :=
  leBytes 8 m.timestamp ++ leBytes 8 m.decoder ++ leBytes 4 m.args_size ++
    [m.level % 256] ++ List.replicate 3 0

/-- How the consumer (`Backend::process_one_log`, Backend.h:344-362, and
`process_log_from_queue`, Backend.h:374-411) reads a header back: it
reinterprets the first 24 bytes as `Metadata`, i.e. `timestamp` from offset 0,
`decoder` from 8, `args_size` from 16, `level` from byte 20. -/
def Metadata.ofBytes (l : List Nat) : MetadataVal :=
  { timestamp := fromLE (l.take 8)
  , decoder := fromLE ((l.drop 8).take 8)
  , args_size := fromLE ((l.drop 16).take 4)
  , level := l.getD 20 0 }

/-- `sizeof(LogMetadata)` — the size the producer reserves and encodes
(Logger.h:107,269). -/
def sizeofLogMetadata : Nat := 32

/-- `sizeof(Metadata)` — the size the consumer peeks and commits
(Backend.h:344,358,379). -/
def sizeofMetadata : Nat := 24

/-- C2 (code bug exhibit): the producer encodes the 32-byte `LogMetadata`
layout (level first, timestamp at offset 8) while the consumer reads the
24-byte `Metadata` layout (timestamp at offset 0).  For the record
`{timestamp := 1, decoder := 42, args_size := 0, level := 2}` the consumer
parses the level byte as the timestamp (reading 2 instead of 1), and the two
header sizes disagree, so producer and consumer do not use the claimed common
layout.  The claimed layout itself round-trips: reading `Metadata.toBytes`
back at the `Metadata` offsets returns the record unchanged. -/
theorem logmetadata_metadata_layout_mismatch :
    Metadata.ofBytes (LogMetadata.toBytes ⟨1, 42, 0, 2⟩) = ⟨2, 1, 0, 0⟩ ∧
    (2 : Nat) ≠ 1 ∧
    (LogMetadata.toBytes ⟨1, 42, 0, 2⟩).length = sizeofLogMetadata ∧
    (Metadata.toBytes ⟨1, 42, 0, 2⟩).length = sizeofMetadata ∧
    sizeofLogMetadata ≠ sizeofMetadata ∧
    Metadata.ofBytes (Metadata.toBytes ⟨1, 42, 0, 2⟩) = ⟨1, 42, 0, 2⟩ := by
  decide

/-- `Logger::log_impl` (Logger.h:103-123) restricted to its observable effect
on the thread queue tail and on the backend's `dropped_messages_` counter:
it reserves `sizeof(LogMetadata) + args_size` bytes; on reservation failure
it returns without touching any counter (Logger.h:112-116 — the `TODO` in the
source; `Backend::increment_dropped_count` has no callers), and on success it
encodes and leaves the counter unchanged. -/
def Logger.log_impl (tail : Node) (dropped : Nat) (args_size : Nat) :
    Bool × Node × Nat :=
  match Queue.reserve_write tail (sizeofLogMetadata + args_size) with
  | none => (false, tail, dropped)
  | some (t', _, _) => (true, t', dropped)

/-- C6 (code bug exhibit): on a full `MAX_NODE_CAPACITY` tail the reservation
fails and the record is dropped, yet the dropped counter stays 0 — the claim
requires it to become 1.  (`Logger::log_impl` returns without incrementing;
`Backend::increment_dropped_count` is never invoked anywhere in the sources.) -/
theorem dropped_counter_not_incremented :
    Logger.log_impl
      { capacity := MAX_NODE_CAPACITY,
        ring := { capacity := MAX_NODE_CAPACITY,
                  write_pos := MAX_NODE_CAPACITY, read_pos := 0 } } 0 0 =
      (false,
        { capacity := MAX_NODE_CAPACITY,
          ring := { capacity := MAX_NODE_CAPACITY,
                    write_pos := MAX_NODE_CAPACITY, read_pos := 0 } }, 0) ∧
    (0 : Nat) ≠ 1 := by
  decide

/-- A runtime log argument, one constructor per argument category of the data
model: arithmetic/enum scalar of byte width `width` holding machine value
`value`; compile-time literal (static address and length); owned
`std::string`; `std::string_view`; runtime `char*` (its pointee bytes). -/
inductive LogArg where
  | scalar (width value : Nat)
  | literal (addr len : Nat)
  | owned (s : List Nat)
  | view (s : List Nat)
  | cstr (s : List Nat)
deriving DecidableEq

/-- `Logger::encode_single_arg` (Logger.h:181-231), the encoder actually used
by `Logger::log_impl`: scalars are copied raw; literals are stored as an
8-byte pointer followed by a 2-byte length; owned strings / views / `char*`
are copied NUL-terminated with no length prefix (for `char*`, `strlen` stops
at the first NUL of the pointee). -/
def Logger.encode_single_arg : LogArg → List Nat
  | .scalar w v => leBytes w v
  | .literal addr len => leBytes 8 addr ++ leBytes 2 len
  | .owned s => s ++ [0]
  | .view s => s ++ [0]
  | .cstr s => s.takeWhile (fun b => b != 0) ++ [0]

/-- The free function `encode_single_arg` of `Encoder.h:78-134`: scalars raw;
literals as 2-byte length then 8-byte pointer; strings as a 2-byte length
(`static_cast<unsigned short>`, i.e. length mod 2^16) followed by that many
content bytes. -/
def encode_single_arg : LogArg → List Nat
  | .scalar w v => leBytes w v
  | .literal addr len => leBytes 2 len ++ leBytes 8 addr
  | .owned s => leBytes 2 s.length ++ s.take (s.length % 65536)
  | .view s => leBytes 2 s.length ++ s.take (s.length % 65536)
  | .cstr s =>
    leBytes 2 (s.takeWhile (fun b => b != 0)).length ++
      (s.takeWhile (fun b => b != 0)).take ((s.takeWhile (fun b => b != 0)).length % 65536)

/-- A value materialized by the decoder: a scalar read back, a literal
pointer, or the bytes of a C string found in the blob. -/
inductive DecodedVal where
  | num (width value : Nat)
  | ptr (addr : Nat)
  | str (s : List Nat)
deriving DecidableEq

/-- The C-string read the decoder performs for the three runtime-string cases
(`strlen` then advance past the NUL, Decoder.h:61-78).  `none` models the
out-of-record memory walk `strlen` would perform on a blob with no NUL. -/
def decodeCString (l : List Nat) : Option (DecodedVal × List Nat) :=
  if (0 : Nat) ∈ l then
    some (.str (l.takeWhile (fun b => b != 0)),
      l.drop ((l.takeWhile (fun b => b != 0)).length + 1))
  else none

/-- `DecodedValue<T>::decode_impl` (Decoder.h:40-86).  The first argument
supplies only the static type `T` of the monomorphized specialization: scalars
are read back by `memcpy` (modelled only when the blob holds enough bytes);
literals read an 8-byte pointer then skip a 2-byte length (which is
discarded); strings are read as NUL-terminated C strings. -/
def DecodedValue.decode_impl : LogArg → List Nat → Option (DecodedVal × List Nat)
  | .scalar w _, l => if l.length < w then none else some (.num w (fromLE (l.take w)), l.drop w)
  | .literal _ _, l => if l.length < 10 then none else some (.ptr (fromLE (l.take 8)), l.drop 10)
  | .owned _, l => decodeCString l
  | .view _, l => decodeCString l
  | .cstr _, l => decodeCString l

/-- The bytes the formatting library renders for a decoded value, given an
arbitrary scalar renderer and the static-storage memory `mem` (the decoder
passes scalars by value, literal pointers as `const char*` — rendered
`strlen`-wise — and C strings as their bytes). -/
def renderDecoded (renderScalar : Nat → Nat → List Nat) (mem : Nat → List Nat) :
    DecodedVal → List Nat
  | .num w v => renderScalar w v
  | .ptr addr => (mem addr).takeWhile (fun b => b != 0)
  | .str s => s

/-- The bytes the formatting library renders for the original argument with
the same format spec: scalars by value; a literal via its static bytes
(`strlen`-wise, as for any `const char*`); an owned string or view with all
its `size()` bytes; a `char*` up to its NUL. -/
def renderLib (renderScalar : Nat → Nat → List Nat) (mem : Nat → List Nat) :
    LogArg → List Nat
  | .scalar w v => renderScalar w v
  | .literal addr _ => (mem addr).takeWhile (fun b => b != 0)
  | .owned s => s
  | .view s => s
  | .cstr s => s.takeWhile (fun b => b != 0)

/-- Machine-representability of an argument: a scalar fits its width, a
pointer fits 8 bytes, and owned strings / views carry no interior NUL. -/
def LogArg.WF : LogArg → Bool
  | .scalar w v => decide (v < 256 ^ w)
  | .literal addr _ => decide (addr < 256 ^ 8)
  | .owned s => decide (¬ (0 : Nat) ∈ s)
  | .view s => decide (¬ (0 : Nat) ∈ s)
  | .cstr _ => true

theorem takeWhile_append_nul (s rest : List Nat) (h : ¬ (0 : Nat) ∈ s) :
    (s ++ 0 :: rest).takeWhile (fun b => b != 0) = s := by
  induction s with
  | nil => simp [List.takeWhile]
  | cons a t ih =>
    have ha : a ≠ 0 := by intro h0; exact h (by simp [h0])
    have ht : ¬ (0 : Nat) ∈ t := by intro h0; exact h (by simp [h0])
    have hb : (a != 0) = true := by simpa using ha
    simp [List.takeWhile, hb, ih ht]

theorem drop_append_nul (s rest : List Nat) :
    (s ++ 0 :: rest).drop (s.length + 1) = rest := by
  induction s with
  | nil => simp
  | cons a t ih => simp [ih]

theorem nul_not_mem_takeWhile (l : List Nat) :
    ¬ (0 : Nat) ∈ l.takeWhile (fun b => b != 0) := by
  induction l with
  | nil => simp [List.takeWhile]
  | cons a t ih =>
    simp only [List.takeWhile]
    split
    · rename_i ha
      intro hmem
      rcases List.mem_cons.mp hmem with h0 | h0
      · subst h0; simp at ha
      · exact ih h0
    · simp

theorem take_leBytes (w v : Nat) (rest : List Nat) :
    (leBytes w v ++ rest).take w = leBytes w v := by
  have h := List.take_left (leBytes w v) rest
  rwa [leBytes_length] at h

theorem drop_leBytes (w v : Nat) (rest : List Nat) :
    (leBytes w v ++ rest).drop w = rest := by
  have h := List.drop_left (leBytes w v) rest
  rwa [leBytes_length] at h

/-- C1 (amended): for the encoder that `Logger::log_impl` actually uses, and
for every well-formed argument — any scalar or literal, and any owned string
or view without interior NUL bytes — the matching decoder specialization reads
the field back at exactly the bytes the encoder wrote (leaving the rest of
the blob), and the decoded value renders identically to the original under
any scalar renderer and any static memory.  Strings with interior NULs, and
the disagreeing free encoder of `Encoder.h`, are excluded (see the
counterexample). -/
theorem logger_decode_encode_renders (renderScalar : Nat → Nat → List Nat)
    (mem : Nat → List Nat) (arg : LogArg) (rest : List Nat)
    (hwf : LogArg.WF arg = true) :
    ∃ d, DecodedValue.decode_impl arg (Logger.encode_single_arg arg ++ rest) =
        some (d, rest) ∧
      renderDecoded renderScalar mem d = renderLib renderScalar mem arg := by
  cases arg with
  | scalar w v =>
    simp only [LogArg.WF, decide_eq_true_eq] at hwf
    refine ⟨.num w v, ?_, rfl⟩
    simp only [Logger.encode_single_arg, DecodedValue.decode_impl]
    rw [if_neg (by simp [leBytes_length])]
    rw [take_leBytes, drop_leBytes, fromLE_leBytes w v hwf]
  | literal addr len =>
    simp only [LogArg.WF, decide_eq_true_eq] at hwf
    refine ⟨.ptr addr, ?_, rfl⟩
    simp only [Logger.encode_single_arg, DecodedValue.decode_impl]
    rw [List.append_assoc]
    rw [if_neg (by simp [leBytes_length]; omega)]
    have hdrop : ((leBytes 8 addr ++ (leBytes 2 len ++ rest))).drop 10 = rest := by
      have h8 : ((leBytes 8 addr ++ (leBytes 2 len ++ rest))).drop 8 = leBytes 2 len ++ rest :=
        drop_leBytes 8 addr _
      have h2 : (leBytes 2 len ++ rest).drop 2 = rest := drop_leBytes 2 len rest
      calc ((leBytes 8 addr ++ (leBytes 2 len ++ rest))).drop 10
          = (((leBytes 8 addr ++ (leBytes 2 len ++ rest))).drop 8).drop 2 := by
            rw [List.drop_drop]
        _ = rest := by rw [h8, h2]
    rw [hdrop, take_leBytes, fromLE_leBytes 8 addr hwf]
  | owned s =>
    simp only [LogArg.WF, decide_eq_true_eq] at hwf
    refine ⟨.str s, ?_, rfl⟩
    simp only [Logger.encode_single_arg, DecodedValue.decode_impl, decodeCString]
    rw [List.append_assoc, List.singleton_append]
    rw [if_pos (by simp), takeWhile_append_nul s rest hwf, drop_append_nul]
  | view s =>
    simp only [LogArg.WF, decide_eq_true_eq] at hwf
    refine ⟨.str s, ?_, rfl⟩
    simp only [Logger.encode_single_arg, DecodedValue.decode_impl, decodeCString]
    rw [List.append_assoc, List.singleton_append]
    rw [if_pos (by simp), takeWhile_append_nul s rest hwf, drop_append_nul]
  | cstr s =>
    refine ⟨.str (s.takeWhile (fun b => b != 0)), ?_, rfl⟩
    simp only [Logger.encode_single_arg, DecodedValue.decode_impl, decodeCString]
    rw [List.append_assoc, List.singleton_append]
    rw [if_pos (by simp),
      takeWhile_append_nul _ rest (nul_not_mem_takeWhile s), drop_append_nul]

/-- Witness for `logger_decode_encode_renders`: the owned string "hi"
(bytes 104, 105) followed by one extra blob byte. -/
theorem logger_decode_encode_renders_witness :
    ∃ d, DecodedValue.decode_impl (.owned [104, 105])
        (Logger.encode_single_arg (.owned [104, 105]) ++ [7]) = some (d, [7]) ∧
      renderDecoded (fun _ _ => []) (fun _ => []) d =
        renderLib (fun _ _ => []) (fun _ => []) (.owned [104, 105]) :=
  logger_decode_encode_renders (fun _ _ => []) (fun _ => []) (.owned [104, 105]) [7]
    (by decide)

/-- C1 counterexample: under the free `Encoder.h` encoder that the claim also
names, the decoder does not read fields back where they were written: the
owned string "A" (byte 65) is encoded as `[1, 0, 65]` (2-byte length then
content), but the decoder reads a C string starting at the length bytes and
materializes the bytes `[1]`, which renders differently from `[65]` — so
decode(encode("A")) is not the library rendering of "A". -/
theorem decode_of_length_prefixed_encode_mismatch :
    encode_single_arg (.owned [65]) = [1, 0, 65] ∧
    DecodedValue.decode_impl (.owned [65]) (encode_single_arg (.owned [65])) =
      some (.str [1], [65]) ∧
    renderDecoded (fun _ _ => []) (fun _ => []) (.str [1]) ≠
      renderLib (fun _ _ => []) (fun _ => []) (.owned [65]) := by
  refine ⟨by decide, by decide, by decide⟩

/-- The 16-bit length field value read back from a length-prefixed string
record. -/
def storedLen (l : List Nat) : Nat := fromLE (l.take 2)

/-- The payload bytes that follow the 2-byte length field of a
length-prefixed string record. -/
def storedPayload (l : List Nat) : List Nat := l.drop 2

theorem fromLE_leBytes_two (v : Nat) : fromLE (leBytes 2 v) = v % 65536 := by
  simp [leBytes, fromLE]
  omega

/-- C8 (amended): in the length-prefixed encoder (`Encoder.h`) the stored
length field is the string length reduced mod 2^16 (the `unsigned short`
cast) and exactly that many bytes are copied, so a length-65535 string is
preserved exactly and no length-prefixed payload exceeds 65535 bytes — but a
length-65536 string is stored with length 0, not truncated to 65535; the
encoder used by `Logger::log_impl` instead copies every runtime string in
full (plus a NUL) with no per-string limit at all. -/
theorem string_encoding_length_spec (s : List Nat) :
    storedLen (encode_single_arg (.owned s)) = s.length % 65536 ∧
    storedPayload (encode_single_arg (.owned s)) = s.take (s.length % 65536) ∧
    (storedPayload (encode_single_arg (.owned s))).length ≤ 65535 ∧
    (s.length ≤ 65535 → storedPayload (encode_single_arg (.owned s)) = s) ∧
    (Logger.encode_single_arg (.owned s)).length = s.length + 1 := by
  have htake : storedLen (encode_single_arg (.owned s)) = s.length % 65536 := by
    unfold storedLen encode_single_arg
    rw [take_leBytes, fromLE_leBytes_two]
  have hpay : storedPayload (encode_single_arg (.owned s)) = s.take (s.length % 65536) := by
    unfold storedPayload encode_single_arg
    rw [drop_leBytes]
  refine ⟨htake, hpay, ?_, ?_, ?_⟩
  · rw [hpay]
    simp only [List.length_take]
    omega
  · intro hle
    rw [hpay]
    have : s.length % 65536 = s.length := by omega
    rw [this, List.take_length]
  · simp [Logger.encode_single_arg]

/-- Witness for `string_encoding_length_spec` at the one-byte string `[7]`. -/
theorem string_encoding_length_spec_witness :
    storedLen (encode_single_arg (.owned [7])) = [7].length % 65536 ∧
    storedPayload (encode_single_arg (.owned [7])) = [7].take ([7].length % 65536) ∧
    (storedPayload (encode_single_arg (.owned [7]))).length ≤ 65535 ∧
    ([7].length ≤ 65535 → storedPayload (encode_single_arg (.owned [7])) = [7]) ∧
    (Logger.encode_single_arg (.owned [7])).length = [7].length + 1 :=
  string_encoding_length_spec [7]

/-- C8 counterexample: a runtime string of length 65536 is neither truncated
to 65535 bytes nor dropped.  The `Logger` encoder stores all 65537 bytes
(content plus NUL), exceeding the claimed 65535-byte bound, and the
length-prefixed `Encoder.h` encoder stores length `65536 % 2^16 = 0` with an
empty payload — not 65535. -/
theorem string_65536_not_truncated_to_65535 :
    (Logger.encode_single_arg (.owned (List.replicate 65536 65))).length = 65537 ∧
    65535 < 65537 ∧
    storedLen (encode_single_arg (.owned (List.replicate 65536 65))) = 0 ∧
    storedPayload (encode_single_arg (.owned (List.replicate 65536 65))) = [] ∧
    (0 : Nat) ≠ 65535 := by
  refine ⟨?_, by omega, ?_, ?_, by omega⟩
  · unfold Logger.encode_single_arg
    rw [List.length_append, List.length_replicate]
    rfl
  · unfold storedLen encode_single_arg
    rw [take_leBytes, fromLE_leBytes_two, List.length_replicate]
  · unfold storedPayload encode_single_arg
    rw [drop_leBytes, List.length_replicate]
    norm_num

/-- `UINT64_MAX`, the initial value of `min_timestamp` in
`Backend::process_one_log` (Backend.h:328). -/
def U64MAX : Nat := 2 ^ 64 - 1

/-- The selection loop of `Backend::process_one_log` (Backend.h:332-353) over
the snapshot list: each wrapper's peeked head timestamp (`none` when no
complete metadata header is available, which also covers abandoned-and-empty
wrappers), scanned in list order, keeping the first strictly smaller
timestamp than every one seen so far (initially `UINT64_MAX`). -/
def selGo : List (Option Nat) → Nat → Nat → Option Nat → Option Nat
  | [], _, _, sel => sel
  | h :: t, i, minTs, sel =>
    match h with
    | some ts => if ts < minTs then selGo t (i + 1) ts (some i) else selGo t (i + 1) minTs sel
    | none => selGo t (i + 1) minTs sel

/-- The queue index `Backend::process_one_log` selects (if any). -/
def selectQueue (heads : List (Option Nat)) : Option Nat :=
  selGo heads 0 U64MAX none

/-- Whether one consumer iteration emits a record
(`process_one_log` returns `true` exactly when a queue was selected). -/
def process_one_log (heads : List (Option Nat)) : Bool :=
  (selectQueue heads).isSome

/-- Running minimum of the available head timestamps, seeded with `m`. -/
def minFrom (m : Nat) : List (Option Nat) → Nat
  | [] => m
  | none :: t => minFrom m t
  | some ts :: t => min ts (minFrom m t)

theorem minFrom_le_base (l : List (Option Nat)) : ∀ m, minFrom m l ≤ m := by
  induction l with
  | nil => intro m; exact le_refl m
  | cons h t ih =>
    intro m
    cases h with
    | none => exact ih m
    | some ts => exact le_trans (min_le_right _ _) (ih m)

theorem minFrom_le_mem (l : List (Option Nat)) : ∀ m ts, some ts ∈ l → minFrom m l ≤ ts := by
  induction l with
  | nil => intro m ts h; simp at h
  | cons h t ih =>
    intro m ts hmem
    rcases List.mem_cons.mp hmem with h0 | h0
    · rw [← h0]
      exact min_le_left _ _
    · cases h with
      | none => exact ih m ts h0
      | some ts' => exact le_trans (min_le_right _ _) (ih m ts h0)

theorem minFrom_rebase (t : List (Option Nat)) : ∀ ts m, ts ≤ m →
    minFrom ts t = min ts (minFrom m t) := by
  induction t with
  | nil => intro ts m h; simp [minFrom]; omega
  | cons h t ih =>
    intro ts m hle
    cases h with
    | none => simp only [minFrom]; exact ih ts m hle
    | some b =>
      simp only [minFrom]
      rw [ih ts m hle]
      omega

theorem selGo_stay (l : List (Option Nat)) : ∀ i m sel, m ≤ minFrom m l →
    selGo l i m sel = sel := by
  induction l with
  | nil => intro i m sel h; rfl
  | cons h t ih =>
    intro i m sel hge
    cases h with
    | none => exact ih (i + 1) m sel (by simpa [minFrom] using hge)
    | some ts =>
      simp only [minFrom] at hge
      simp only [selGo]
      rw [if_neg (by omega)]
      exact ih (i + 1) m sel (by omega)

theorem selGo_hit (l : List (Option Nat)) : ∀ i m sel, minFrom m l < m →
    ∃ j, j < l.length ∧ selGo l i m sel = some (i + j) ∧
      l.getD j none = some (minFrom m l) ∧
      ∀ p, p < j → ∀ ts, l.getD p none = some ts → minFrom m l < ts := by
  induction l with
  | nil => intro i m sel h; simp [minFrom] at h
  | cons h t ih =>
    intro i m sel hlt
    cases h with
    | none =>
      simp only [minFrom] at hlt
      obtain ⟨j, hj1, hj2, hj3, hj4⟩ := ih (i + 1) m sel hlt
      refine ⟨j + 1, by simpa using hj1, ?_, ?_, ?_⟩
      · simp only [selGo]
        rw [hj2]
        congr 1
        omega
      · simpa [minFrom] using hj3
      · intro p hp ts hts
        cases p with
        | zero => simp at hts
        | succ q =>
          simp only [List.getD_cons_succ] at hts
          simp only [minFrom]
          exact hj4 q (by omega) ts hts
    | some ts =>
      simp only [minFrom] at hlt ⊢
      by_cases hts : ts < m
      · have hre : minFrom ts t = min ts (minFrom m t) := minFrom_rebase t ts m (by omega)
        by_cases hinner : minFrom ts t < ts
        · obtain ⟨j, hj1, hj2, hj3, hj4⟩ := ih (i + 1) ts (some i) (by omega)
          refine ⟨j + 1, by simpa using hj1, ?_, ?_, ?_⟩
          · simp only [selGo]
            rw [if_pos hts, hj2]
            congr 1
            omega
          · rw [List.getD_cons_succ, hj3, hre]
          · intro p hp tp htp
            cases p with
            | zero =>
              simp only [List.getD_cons_zero] at htp
              injection htp with htp
              omega
            | succ q =>
              rw [List.getD_cons_succ] at htp
              have := hj4 q (by omega) tp htp
              omega
        · refine ⟨0, by simp, ?_, ?_, ?_⟩
          · simp only [selGo]
            rw [if_pos hts, selGo_stay t (i + 1) ts (some i) (by omega)]
            norm_num
          · have hmin : min ts (minFrom m t) = ts := by omega
            rw [List.getD_cons_zero, hmin]
          · intro p hp tp htp
            omega
      · have hmin : min ts (minFrom m t) = minFrom m t := by omega
        rw [hmin] at hlt ⊢
        obtain ⟨j, hj1, hj2, hj3, hj4⟩ := ih (i + 1) m sel hlt
        refine ⟨j + 1, by simpa using hj1, ?_, ?_, ?_⟩
        · simp only [selGo]
          rw [if_neg (by omega), hj2]
          congr 1
          omega
        · rw [List.getD_cons_succ, hj3]
        · intro p hp tp htp
          cases p with
          | zero =>
            simp only [List.getD_cons_zero] at htp
            injection htp with htp
            omega
          | succ q =>
            rw [List.getD_cons_succ] at htp
            exact hj4 q (by omega) tp htp

/-- C9 (amended: some available head timestamp is below the `UINT64_MAX`
sentinel): whenever the snapshot holds an available header whose timestamp is
less than 2^64-1, exactly one record is emitted — `process_one_log` selects a
queue whose head timestamp is the minimum over all available heads, and every
wrapper earlier in snapshot order carries a strictly larger available
timestamp (so equal-timestamp ties go to the earliest wrapper, and cross-queue
emission is non-decreasing with a stable tie-break). -/
theorem select_min_earliest (heads : List (Option Nat))
    (h : minFrom U64MAX heads < U64MAX) :
    process_one_log heads = true ∧
    ∃ j, selectQueue heads = some j ∧
      heads.getD j none = some (minFrom U64MAX heads) ∧
      (∀ ts, some ts ∈ heads → minFrom U64MAX heads ≤ ts) ∧
      ∀ p, p < j → ∀ ts, heads.getD p none = some ts → minFrom U64MAX heads < ts := by
  obtain ⟨j, hj1, hj2, hj3, hj4⟩ := selGo_hit heads 0 U64MAX none h
  refine ⟨?_, j, ?_, hj3, fun ts hts => minFrom_le_mem heads U64MAX ts hts, hj4⟩
  · unfold process_one_log selectQueue
    rw [hj2]
    rfl
  · unfold selectQueue
    rw [hj2]
    congr 1
    omega

/-- Witness for `select_min_earliest` on heads `[some 5, some 3, some 3]`:
the second wrapper (earliest holder of the minimal timestamp 3) is selected. -/
theorem select_min_earliest_witness :
    process_one_log [some 5, some 3, some 3] = true ∧
    ∃ j, selectQueue [some 5, some 3, some 3] = some j ∧
      [some 5, some 3, some 3].getD j none =
        some (minFrom U64MAX [some 5, some 3, some 3]) ∧
      (∀ ts, some ts ∈ [some 5, some 3, some 3] →
        minFrom U64MAX [some 5, some 3, some 3] ≤ ts) ∧
      ∀ p, p < j → ∀ ts, [some 5, some 3, some 3].getD p none = some ts →
        minFrom U64MAX [some 5, some 3, some 3] < ts :=
  select_min_earliest [some 5, some 3, some 3] (by decide)

/-- C9 counterexample: a snapshot whose only queue has a complete header
available with timestamp `UINT64_MAX` emits nothing — `ts < min_timestamp`
never fires against the `UINT64_MAX` sentinel — refuting "exactly one record
is emitted whenever a complete header is available". -/
theorem select_skips_sentinel_timestamp :
    (some U64MAX ∈ [some U64MAX]) ∧
    process_one_log [some U64MAX] = false := by
  constructor
  · simp
  · decide

/-- The 200-entry two-digit lookup table of `Backend::format_timestamp`
(Backend.h:458-469). -/
def digits : List Char := [
  '0', '0', '0', '1', '0', '2', '0', '3', '0', '4', '0', '5', '0', '6', '0', '7', '0', '8', '0', '9',
  '1', '0', '1', '1', '1', '2', '1', '3', '1', '4', '1', '5', '1', '6', '1', '7', '1', '8', '1', '9',
  '2', '0', '2', '1', '2', '2', '2', '3', '2', '4', '2', '5', '2', '6', '2', '7', '2', '8', '2', '9',
  '3', '0', '3', '1', '3', '2', '3', '3', '3', '4', '3', '5', '3', '6', '3', '7', '3', '8', '3', '9',
  '4', '0', '4', '1', '4', '2', '4', '3', '4', '4', '4', '5', '4', '6', '4', '7', '4', '8', '4', '9',
  '5', '0', '5', '1', '5', '2', '5', '3', '5', '4', '5', '5', '5', '6', '5', '7', '5', '8', '5', '9',
  '6', '0', '6', '1', '6', '2', '6', '3', '6', '4', '6', '5', '6', '6', '6', '7', '6', '8', '6', '9',
  '7', '0', '7', '1', '7', '2', '7', '3', '7', '4', '7', '5', '7', '6', '7', '7', '7', '8', '7', '9',
  '8', '0', '8', '1', '8', '2', '8', '3', '8', '4', '8', '5', '8', '6', '8', '7', '8', '8', '8', '9',
  '9', '0', '9', '1', '9', '2', '9', '3', '9', '4', '9', '5', '9', '6', '9', '7', '9', '8', '9', '9']

/-- `digits[i]` as the source indexes it (every index used is in range). -/
def digitAt (i : Nat) : Char := digits.getD i ' '

/-- `Backend::format_timestamp` (Backend.h:433-498): nanoseconds to
`HH:MM:SS:mmm` — note the source writes ':' (not '.') between seconds and
milliseconds (`buffer[8] = ':'`, Backend.h:487). -/
def format_timestamp (timestamp_ns : Nat) : String :=
  let total_ms := timestamp_ns / 1000000
  let milliseconds := total_ms - total_ms / 1000 * 1000
  let total_seconds0 := total_ms / 1000
  let total_seconds := total_seconds0 - total_seconds0 / 86400 * 86400
  let hours := total_seconds / 3600
  let rem := total_seconds - hours * 3600
  let minutes := rem / 60
  let seconds := rem - minutes * 60
  let ms_hundreds := milliseconds / 100
  let ms_remainder := milliseconds - ms_hundreds * 100
  String.mk [digitAt (hours * 2), digitAt (hours * 2 + 1), ':',
    digitAt (minutes * 2), digitAt (minutes * 2 + 1), ':',
    digitAt (seconds * 2), digitAt (seconds * 2 + 1), ':',
    Char.ofNat (48 + ms_hundreds),
    digitAt (ms_remainder * 2), digitAt (ms_remainder * 2 + 1)]

/-- `Backend::level_to_string` (Backend.h:416-426) on the level byte. -/
def level_to_string (level : Nat) : String :=
  if level = 0 then "[TRACE]"
  else if level = 1 then "[DEBUG]"
  else if level = 2 then "[INFO]"
  else if level = 3 then "[WARN]"
  else if level = 4 then "[ERROR]"
  else if level = 5 then "[FATAL]"
  else "[UNKNOWN]"

/-- The bare level names of the claimed line format. -/
def level_name (level : Nat) : String :=
  if level = 0 then "TRACE"
  else if level = 1 then "DEBUG"
  else if level = 2 then "INFO"
  else if level = 3 then "WARN"
  else if level = 4 then "ERROR"
  else if level = 5 then "FATAL"
  else "UNKNOWN"

/-- The line `Backend::process_log_from_queue` emits to the output stage
(Backend.h:392-405): level tag, space, formatted timestamp, space, the
decoder's formatted message, newline. -/
def process_log_line (level ts : Nat) (msg : String) : String :=
  level_to_string level ++ " " ++ format_timestamp ts ++ " " ++ msg ++ "\n"

/-- Two-digit zero-padded rendering used by the claimed timestamp format. -/
def two_digits (n : Nat) : List Char :=
  [Char.ofNat (48 + n / 10), Char.ofNat (48 + n % 10)]

/-- The claimed timestamp text with the amended ':' millisecond separator:
`HH:MM:SS:mmm` computed from the nanosecond timestamp by integer division,
day-wrapped modulo 86400 seconds. -/
def spec_timestamp_colon (ns : Nat) : String :=
  String.mk (two_digits (ns / 1000000000 % 86400 / 3600) ++
    ':' :: two_digits (ns / 1000000000 % 86400 % 3600 / 60) ++
    ':' :: two_digits (ns / 1000000000 % 86400 % 60) ++
    ':' :: Char.ofNat (48 + ns / 1000000 % 1000 / 100) ::
    two_digits (ns / 1000000 % 1000 % 100))

theorem digit_table : ∀ n < 100,
    digitAt (n * 2) = Char.ofNat (48 + n / 10) ∧
    digitAt (n * 2 + 1) = Char.ofNat (48 + n % 10) := by
  decide

theorem format_timestamp_eq (ns : Nat) :
    format_timestamp ns = spec_timestamp_colon ns := by
  simp only [format_timestamp, spec_timestamp_colon, two_digits]
  have e_ms : ns / 1000000 - ns / 1000000 / 1000 * 1000 = ns / 1000000 % 1000 := by
    omega
  rw [e_ms]
  have e_sec : ns / 1000000 / 1000 - ns / 1000000 / 1000 / 86400 * 86400 =
      ns / 1000000000 % 86400 := by
    omega
  rw [e_sec]
  have e_rem : ns / 1000000000 % 86400 - ns / 1000000000 % 86400 / 3600 * 3600 =
      ns / 1000000000 % 86400 % 3600 := by
    omega
  rw [e_rem]
  have e_s : ns / 1000000000 % 86400 % 3600 - ns / 1000000000 % 86400 % 3600 / 60 * 60 =
      ns / 1000000000 % 86400 % 60 := by
    omega
  rw [e_s]
  have e_msr : ns / 1000000 % 1000 - ns / 1000000 % 1000 / 100 * 100 =
      ns / 1000000 % 1000 % 100 := by
    omega
  rw [e_msr]
  obtain ⟨dh1, dh2⟩ := digit_table (ns / 1000000000 % 86400 / 3600) (by omega)
  obtain ⟨dm1, dm2⟩ := digit_table (ns / 1000000000 % 86400 % 3600 / 60) (by omega)
  obtain ⟨ds1, ds2⟩ := digit_table (ns / 1000000000 % 86400 % 60) (by omega)
  obtain ⟨dr1, dr2⟩ := digit_table (ns / 1000000 % 1000 % 100) (by omega)
  rw [dh1, dh2, dm1, dm2, ds1, ds2, dr1, dr2]
  simp

/-- C7 (amended: the millisecond separator is ':' rather than '.'): every
emitted line is the level tag, a space, the `HH:MM:SS:mmm` timestamp computed
by integer division with day-wrap modulo 86400 s, a space, the message and a
final newline, where the tag is '[' ++ LEVEL ++ ']' and LEVEL is one of
TRACE/DEBUG/INFO/WARN/ERROR/FATAL for the six valid level bytes. -/
theorem emitted_line_format (level ts : Nat) (msg : String) (h : level < 6) :
    process_log_line level ts msg =
      level_to_string level ++ " " ++ spec_timestamp_colon ts ++ " " ++ msg ++ "\n" ∧
    level_to_string level = "[" ++ level_name level ++ "]" ∧
    (level_name level = "TRACE" ∨ level_name level = "DEBUG" ∨
      level_name level = "INFO" ∨ level_name level = "WARN" ∨
      level_name level = "ERROR" ∨ level_name level = "FATAL") := by
  refine ⟨?_, ?_, ?_⟩
  · unfold process_log_line
    rw [format_timestamp_eq]
  · interval_cases level <;> rfl
  · interval_cases level <;> simp [level_name]

/-- Witness for `emitted_line_format`: level INFO (2), timestamp 0,
message "x". -/
theorem emitted_line_format_witness :
    process_log_line 2 0 "x" =
      level_to_string 2 ++ " " ++ spec_timestamp_colon 0 ++ " " ++ "x" ++ "\n" ∧
    level_to_string 2 = "[" ++ level_name 2 ++ "]" ∧
    (level_name 2 = "TRACE" ∨ level_name 2 = "DEBUG" ∨
      level_name 2 = "INFO" ∨ level_name 2 = "WARN" ∨
      level_name 2 = "ERROR" ∨ level_name 2 = "FATAL") :=
  emitted_line_format 2 0 "x" (by decide)

/-- C7 counterexample: at the timestamp 12:34:56.789 into a day the source
renders `12:34:56:789` — a colon, not the claimed dot, before the
milliseconds. -/
theorem format_timestamp_colon_not_dot :
    format_timestamp 45296789000000 = "12:34:56:789" ∧
    format_timestamp 45296789000000 ≠ "12:34:56.789" := by
  constructor
  · decide
  · decide
